import Mathlib

set_option maxHeartbeats 1000000
set_option maxRecDepth 4000

/-!
Verification development for the time-based segmentation and re-timing engine
of the vibecut repository.  The definitions below are shallow embeddings of:

* `skills/chunk-process/smart_chunk.py`: `find_split_points` (the constrained
  split-point selector, including its fixed-interval fallback) and
  `split_video_at_points` (chunk construction from split points);
* `skills/talking-head/sentence_split.py`: `group_into_clips` (the pause-based
  segmenter, including its artificial-boundary fallback);
* `skills/talking-head/precision_trim.py`: the cut-validation loop of
  `identify_cuts_with_gemini`, `merge_overlapping_cuts` and
  `generate_keep_segments`;
* `skills/talking-head/generate_captions.py`: `map_timestamps_to_trimmed`.

Seconds and milliseconds are modelled as rationals (the Python code uses
floats; all constants involved are decimal and the claims carry a 1e-6
tolerance, which exact rational arithmetic subsumes).  Python lists are Lean
lists, Python dicts are Lean structures holding the fields the algorithms
read or write.  File system and subprocess effects (ffmpeg invocations) are
out of scope: `split_video_at_points` is modelled as the pure chunk-record
construction it performs, assuming every ffmpeg invocation succeeds.
-/

/-- A word-level token as produced by the forced aligner: text, start and end
in seconds, and the pause preceding the word in milliseconds
(`pause_before_ms`, read by `find_sentence_boundaries`). -/
structure Word where
  text : String
  start : ℚ
  «end» : ℚ
  pause_before_ms : ℚ
deriving DecidableEq

/-- A silence gap candidate from `detect_silence_gaps`: `(midpoint, duration,
confidence)`. -/
structure Gap where
  t : ℚ
  dur : ℚ
  conf : ℚ
deriving DecidableEq

/-- An energy sample from `analyze_audio_energy`: `(timestamp, rms_level)`. -/
structure EPoint where
  t : ℚ
  level : ℚ
deriving DecidableEq

/-- A raw cut as returned by the semantic service before validation, carrying
word indices (Python ints, so possibly negative) and a reason string. -/
structure RawCut where
  start_word_idx : ℤ
  end_word_idx : ℤ
  reason : String
deriving DecidableEq

/-- A validated, timestamp-enriched cut interval: the dict produced by the
validation loop of `identify_cuts_with_gemini` and consumed by
`merge_overlapping_cuts` / `generate_keep_segments`. -/
structure Cut where
  start_word_idx : ℤ
  end_word_idx : ℤ
  reason : String
  start_sec : ℚ
  end_sec : ℚ
  duration_sec : ℚ
deriving DecidableEq

/-- A keep interval as built by `generate_keep_segments`. -/
structure KeepSeg where
  start_sec : ℚ
  end_sec : ℚ
  duration_sec : ℚ
deriving DecidableEq

/-- A chunk record as built by `split_video_at_points`. -/
structure Chunk where
  chunk_num : ℕ
  start : ℚ
  «end» : ℚ
  duration : ℚ
deriving DecidableEq

/-- A clip record as built by `group_into_clips`. -/
structure Clip where
  clip_id : ℕ
  start_idx : ℕ
  end_idx : ℕ
  start_sec : ℚ
  end_sec : ℚ
  duration_sec : ℚ
  text : String
  word_count : ℕ
deriving DecidableEq

/-- A remapped word as built by `map_timestamps_to_trimmed`. -/
structure MappedWord where
  text : String
  start : ℚ
  «end» : ℚ
  startMs : ℤ
  endMs : ℤ
  original_start : ℚ
  original_end : ℚ
deriving DecidableEq

/-- Python `int(q)` on a float: truncation toward zero. -/
def pyInt (q : ℚ) : ℤ := if 0 ≤ q then ⌊q⌋ else ⌈q⌉

/-- Python `range(0, stop, step)` for a positive step (`smart_chunk` only calls
it with start 0).  With step ≤ 0 Python raises for step 0 and yields nothing
for a negative step; the model returns `[]` in both cases (the step-0 case is
only reachable when `target_chunk_sec < 1`). -/
def pyRange (stop step : ℤ) : List ℤ :=
  if 0 < step then
    (List.range ((stop + step - 1) / step).toNat).map (fun i : ℕ => (i : ℤ) * step)
  else []

/-- First maximal element under `score`, as Python `max(..., key=...)`:
later elements replace the running best only on a strict improvement. -/
def pickFirstMax (score : α → ℚ) : α → List α → α
  | best, [] => best
  | best, x :: xs => pickFirstMax score (if score best < score x then x else best) xs

/-- First minimal element under `score`, as Python `min(..., key=...)`. -/
def pickFirstMin (score : α → ℚ) : α → List α → α
  | best, [] => best
  | best, x :: xs => pickFirstMin score (if score x < score best then x else best) xs

/-- Score of a silence-gap candidate in `find_split_points`:
`confidence - abs(t - target_pos) / search_window * 0.3`. -/
def gapScore (target_pos win : ℚ) (g : Gap) : ℚ :=
  g.conf - |g.t - target_pos| / win * (3 / 10)

/-- Priority 1 of `find_split_points`: the best-scored silence gap whose
midpoint lies in the search window, if any. -/
def pickGap (gaps : List Gap) (sstart send target_pos win : ℚ) : Option ℚ :=
  match gaps.filter (fun g => decide (sstart ≤ g.t ∧ g.t ≤ send)) with
  | [] => none
  | g :: gs => some (pickFirstMax (gapScore target_pos win) g gs).t

/-- Priority 2 of `find_split_points`: the lowest-level energy sample in the
search window, if any. -/
def pickEnergy (energy : List EPoint) (sstart send : ℚ) : Option ℚ :=
  match energy.filter (fun e => decide (sstart ≤ e.t ∧ e.t ≤ send)) with
  | [] => none
  | e :: es => some (pickFirstMin EPoint.level e es).t

/-- The greedy while-loop of `find_split_points`.  `fuel` bounds the number of
iterations; the Python loop has no intrinsic bound for degenerate parameters
(for example `target_chunk_sec = 0` with an in-window candidate at the current
position), so the embedding makes the iteration count explicit.  Any fuel at
least the number of iterations the Python loop performs yields the Python
result.  `fspStep` is the body of one iteration: the best silence gap in the
search window, else the quietest energy sample there, else the forced target
position. -/
def fspStep (energy : List EPoint) (gaps : List Gap) (total target mn mx win current : ℚ) : ℚ :=
  match pickGap gaps (max (current + mn) (current + target - win))
      (min total (min (current + target + win) (current + mx))) (current + target) win with
  | some t => t
  | none =>
    match pickEnergy energy (max (current + mn) (current + target - win))
        (min total (min (current + target + win) (current + mx))) with
    | some t => t
    | none => current + target

def fspGo (energy : List EPoint) (gaps : List Gap) (total target mn mx win : ℚ) :
    ℕ → ℚ → List ℚ
  | 0, _ => []
  | fuel + 1, current =>
    if current + mn < total then
      fspStep energy gaps total target mn mx win current ::
        fspGo energy gaps total target mn mx win fuel
          (fspStep energy gaps total target mn mx win current)
    else []

/-- `smart_chunk.find_split_points(energy_data, total_duration,
target_chunk_sec, min_chunk_sec, max_chunk_sec, search_window_sec,
silence_gaps)`.  When both candidate lists are empty it falls back to
`list(range(0, int(total_duration), int(target_chunk_sec)))`; otherwise it
runs the greedy loop starting from the mandatory split at 0. -/
def find_split_points (fuel : ℕ) (energy : List EPoint) (total target mn mx win : ℚ)
    (gaps : List Gap) : List ℚ :=
  if energy.isEmpty && gaps.isEmpty then
    (pyRange (pyInt total) (pyInt target)).map (fun z : ℤ => (z : ℚ))
  else
    0 :: fspGo energy gaps total target mn mx win fuel 0

/-- Chunk-record construction of `split_video_at_points`: chunk `i` spans from
`split_points[i]` to `split_points[i+1]` (or to `total_duration` for the last
one).  The ffmpeg invocation and the existence check on its output file are
I/O and are modelled as always succeeding. -/
def chunksFrom (total : ℚ) : ℕ → List ℚ → List Chunk
  | _, [] => []
  | i, s :: rest =>
    ⟨i, s, rest.headD total, rest.headD total - s⟩ :: chunksFrom total (i + 1) rest

/-- `smart_chunk.split_video_at_points`, pure part. -/
def split_video_at_points (split_points : List ℚ) (total : ℚ) : List Chunk :=
  chunksFrom total 0 split_points

/-- Total lookup standing for Python `words[i]` on a nonnegative index; the
default is only reached where Python would raise `IndexError`. -/
def wordD (words : List Word) (i : ℕ) : Word :=
  words.getD i ⟨"", 0, 0, 0⟩

/-- The inner `for b in boundaries` scan of `group_into_clips`: the first
boundary (in list order) strictly beyond `idx` and within five words of it. -/
def findB (boundaries : List ℕ) (idx : ℕ) : Option ℕ :=
  boundaries.find? (fun b => decide (idx < b ∧ b ≤ idx + 5))

/-- The inner `for idx in range(start_idx + 1, len(words))` scan of
`group_into_clips`, computing `best_end_idx`.  `best` is the best end index
found so far (`best_end_idx`); the matching `best_end_sec` is always
`words[best_end_idx].end` and is recomputed by the caller.  The first (fuel)
argument makes the recursion structural; `bestOf` passes `words.length`,
which always exceeds the number of remaining scan steps, so the fuel-empty
branch is never reached from the call sites. -/
def bestEndGo (words : List Word) (boundaries : List ℕ) (start_sec target mx : ℚ) :
    ℕ → ℕ → ℕ → ℕ
  | 0, _, best => best
  | fuel + 1, idx, best =>
    if idx < words.length then
      if mx < (wordD words idx).«end» - start_sec then best
      else if target ≤ (wordD words idx).«end» - start_sec then
        if (idx + 1) ∈ boundaries ∨ words.length ≤ idx + 1 then idx
        else
          match findB boundaries idx with
          | some b => if (wordD words (b - 1)).«end» - start_sec ≤ mx then b - 1 else idx
          | none => idx
      else bestEndGo words boundaries start_sec target mx fuel (idx + 1) idx
    else best

/-- `best_end_idx` for the clip starting at word `current`. -/
def bestOf (words : List Word) (boundaries : List ℕ) (target mx : ℚ) (current : ℕ) : ℕ :=
  bestEndGo words boundaries (wordD words current).start target mx
    words.length (current + 1) current

/-- The clip record emitted by one iteration of the main loop of
`group_into_clips`. -/
def mkClip (words : List Word) (boundaries : List ℕ) (target mx : ℚ)
    (clip_id current : ℕ) : Clip :=
  let start_sec := (wordD words current).start
  let best := bestOf words boundaries target mx current
  let end_sec := (wordD words best).«end»
  let clip_words := (words.take (best + 1)).drop current
  ⟨clip_id, current, best, start_sec, end_sec, end_sec - start_sec,
    String.intercalate " " (clip_words.map Word.text), clip_words.length⟩

/-- `bestEndGo` never returns less than a value below its cursor; in
particular `bestOf words b t m current ≥ current`, which is what makes the
main loop of `group_into_clips` advance. -/
theorem bestEndGo_ge (words : List Word) (boundaries : List ℕ) (s t mx : ℚ) :
    ∀ fuel idx best, best < idx →
      best ≤ bestEndGo words boundaries s t mx fuel idx best := by
  intro fuel
  induction fuel with
  | zero => intro idx best _; exact le_rfl
  | succ n ih =>
    intro idx best hlt
    rw [bestEndGo]
    split
    next h =>
      split
      next => omega
      next =>
        split
        next =>
          split
          next => omega
          next =>
            split
            next b hfb =>
              have hb := List.find?_some hfb
              simp only [decide_eq_true_eq] at hb
              split
              next => omega
              next => omega
            next => omega
        next =>
          have := ih (idx + 1) idx (by omega)
          omega
    next => omega

/-- `current ≤ bestOf words boundaries target mx current`. -/
theorem bestOf_ge (words : List Word) (boundaries : List ℕ) (target mx : ℚ)
    (current : ℕ) : current ≤ bestOf words boundaries target mx current :=
  bestEndGo_ge words boundaries (wordD words current).start target mx
    words.length (current + 1) current (by omega)

/-- The main `while current_idx < len(words)` loop of `group_into_clips`.
The first numeric argument is fuel making the recursion structural;
`group_into_clips` passes `words.length + 1`, and the fuel-stability theorem
below shows any fuel beyond the remaining word count gives the same result,
which is the termination argument for the Python loop. -/
def groupGo (words : List Word) (boundaries : List ℕ) (target mx : ℚ) :
    ℕ → ℕ → ℕ → List Clip
  | 0, _, _ => []
  | fuel + 1, clip_id, current =>
    if current < words.length then
      mkClip words boundaries target mx clip_id current ::
        groupGo words boundaries target mx fuel (clip_id + 1)
          (bestOf words boundaries target mx current + 1)
    else []

/-- The artificial-boundary fallback of `group_into_clips`: boundaries at
`target_duration_sec` intervals measured from the previous boundary word's
start. -/
def artBGo (target : ℚ) : ℚ → ℕ → List Word → List ℕ
  | _, _, [] => []
  | ct, idx, w :: ws =>
    if target ≤ w.start - ct then idx :: artBGo target w.start (idx + 1) ws
    else artBGo target ct (idx + 1) ws

/-- `sentence_split.group_into_clips(words, boundaries, max_duration_sec,
min_duration_sec, target_duration_sec)`.  `min_duration_sec` is accepted but
never read by the Python function body, which the embedding mirrors.
`effBoundaries` is the boundary list actually used: the given one, or the
rebuilt artificial one when fewer than two boundaries were supplied. -/
def effBoundaries (words : List Word) (boundaries : List ℕ) (target : ℚ) : List ℕ :=
  if boundaries.length ≤ 1 then
    0 :: artBGo target (words.headD ⟨"", 0, 0, 0⟩).start 1 words.tail
  else boundaries

def group_into_clips (words : List Word) (boundaries : List ℕ)
    (mx mn target : ℚ) : List Clip :=
  if words.isEmpty then []
  else groupGo words (effBoundaries words boundaries target) target mx (words.length + 1) 1 0

/-- Python list indexing with a possibly negative index: `words[i]` is
`words[len(words) + i]` for `-len(words) ≤ i < 0`.  Outside
`[-len(words), len(words))` Python raises `IndexError`; the default value
stands for that (the validation loop only reaches this function with
`i < len(words)`). -/
def pyGetW (words : List Word) (i : ℤ) : Word :=
  if 0 ≤ i then wordD words i.toNat
  else if -(words.length : ℤ) ≤ i then wordD words (words.length - (-i).toNat)
  else ⟨"", 0, 0, 0⟩

/-- The validation loop of `identify_cuts_with_gemini` (precision_trim.py
lines 191-214): a cut whose `start_word_idx` or `end_word_idx` is `≥
len(words)` is skipped with a warning; every other cut is kept and enriched
with `words[start_word_idx].start` / `words[end_word_idx].end`. -/
def validate_cuts (words : List Word) : List RawCut → List Cut
  | [] => []
  | c :: cs =>
    if (words.length : ℤ) ≤ c.start_word_idx ∨ (words.length : ℤ) ≤ c.end_word_idx then
      validate_cuts words cs
    else
      ⟨c.start_word_idx, c.end_word_idx, c.reason,
        (pyGetW words c.start_word_idx).start,
        (pyGetW words c.end_word_idx).«end»,
        (pyGetW words c.end_word_idx).«end» - (pyGetW words c.start_word_idx).start⟩ ::
        validate_cuts words cs

/-- Merging one cut into the running merged cut, as the mutation block of
`merge_overlapping_cuts`: extend the end, take the larger `end_word_idx`,
recompute the duration and concatenate the reasons. -/
def mergeInto (last cut : Cut) : Cut :=
  let e := max last.end_sec cut.end_sec
  { last with
    end_sec := e
    end_word_idx := max last.end_word_idx cut.end_word_idx
    duration_sec := e - last.start_sec
    reason := last.reason ++ " + " ++ cut.reason }

/-- The fold of `merge_overlapping_cuts` over the sorted cut list: the running
last merged cut absorbs the next cut when it starts within 0.1 s of the
running end, and is emitted otherwise. -/
def mergeLoop : Cut → List Cut → List Cut
  | acc, [] => [acc]
  | acc, c :: cs =>
    if c.start_sec ≤ acc.end_sec + 1 / 10 then mergeLoop (mergeInto acc c) cs
    else acc :: mergeLoop c cs

/-- Ordering by `start_sec`, the sort key of `merge_overlapping_cuts`. -/
def cutLE (a b : Cut) : Prop := a.start_sec ≤ b.start_sec

instance : DecidableRel cutLE :=
  fun a b => inferInstanceAs (Decidable (a.start_sec ≤ b.start_sec))

instance : IsTotal Cut cutLE := ⟨fun a b => le_total a.start_sec b.start_sec⟩

instance : IsTrans Cut cutLE := ⟨fun _ _ _ => le_trans⟩

/-- `precision_trim.merge_overlapping_cuts`: sort by `start_sec` (Python's
sort is stable, modelled by `insertionSort`) and fold.  The Python `.copy()`
calls give the fold value semantics, which the embedding has natively. -/
def merge_overlapping_cuts (cuts : List Cut) : List Cut :=
  match List.insertionSort cutLE cuts with
  | [] => []
  | x :: xs => mergeLoop x xs

/-- First pass of `generate_keep_segments`: walk the merged cuts emitting the
gap before each cut when it exceeds 50 ms, then the final remainder up to
`duration` when it exceeds 50 ms. -/
def rawKeepsGo (duration : ℚ) : ℚ → List Cut → List KeepSeg
  | current, [] =>
    if current < duration - 1 / 20 then [⟨current, duration, duration - current⟩] else []
  | current, c :: rest =>
    if current + 1 / 20 < c.start_sec then
      ⟨current, c.start_sec, c.start_sec - current⟩ :: rawKeepsGo duration c.end_sec rest
    else rawKeepsGo duration c.end_sec rest

/-- The total duration of the boundary gaps the 50 ms threshold of
`generate_keep_segments` drops without emitting a keep interval (the same walk
as `rawKeepsGo`, summing the complementary branches). -/
def discardedGo (duration : ℚ) : ℚ → List Cut → ℚ
  | current, [] => if current < duration - 1 / 20 then 0 else duration - current
  | current, c :: rest =>
    (if current + 1 / 20 < c.start_sec then 0 else c.start_sec - current) +
      discardedGo duration c.end_sec rest

/-- The observable outcome of `generate_keep_segments`: the Python function
returns only `keeps`; `dropped_count` and `dropped_duration` are local
variables surfaced solely through the `print` note when `dropped_count > 0`. -/
structure KeepResult where
  keeps : List KeepSeg
  dropped_count : ℕ
  dropped_duration : ℚ
deriving DecidableEq

/-- One iteration of the jitter-filter pass of `generate_keep_segments`:
keep the interval, or count and sum it as dropped. -/
def keepStep (min_keep_duration : ℚ) (r : KeepResult) (k : KeepSeg) : KeepResult :=
  if min_keep_duration ≤ k.duration_sec then
    { r with keeps := r.keeps ++ [k] }
  else
    { r with
      dropped_count := r.dropped_count + 1
      dropped_duration := r.dropped_duration + k.duration_sec }

/-- `precision_trim.generate_keep_segments(cuts, duration, words,
min_keep_duration)`.  `words` is accepted but never read by the Python body.
The second pass filters out keep intervals shorter than `min_keep_duration`,
counting and summing what it drops. -/
def generate_keep_segments (cuts : List Cut) (duration : ℚ) (words : List Word)
    (min_keep_duration : ℚ) : KeepResult :=
  (rawKeepsGo duration 0 (merge_overlapping_cuts cuts)).foldl
    (keepStep min_keep_duration) ⟨[], 0, 0⟩

/-- The inner `for word in words` pass of `map_timestamps_to_trimmed` for one
kept segment: every word fully contained in the segment is shifted by
`cumulative_offset - seg_start`. -/
def mapSeg (off : ℚ) (seg : KeepSeg) (words : List Word) : List MappedWord :=
  words.filterMap (fun w =>
    if seg.start_sec ≤ w.start ∧ w.«end» ≤ seg.end_sec then
      some ⟨w.text, w.start - seg.start_sec + off, w.«end» - seg.start_sec + off,
        pyInt ((w.start - seg.start_sec + off) * 1000),
        pyInt ((w.«end» - seg.start_sec + off) * 1000), w.start, w.«end»⟩
    else none)

/-- The outer `for segment in kept_segments` loop of
`map_timestamps_to_trimmed`, threading the cumulative offset. -/
def mapGo (words : List Word) : ℚ → List KeepSeg → List MappedWord
  | _, [] => []
  | off, seg :: rest =>
    mapSeg off seg words ++ mapGo words (off + (seg.end_sec - seg.start_sec)) rest

/-- `generate_captions.map_timestamps_to_trimmed(words, kept_segments)`. -/
def map_timestamps_to_trimmed (words : List Word) (kept_segments : List KeepSeg) :
    List MappedWord :=
  mapGo words 0 kept_segments

/-- Sum of interval spans of a cut list. -/
def sumDur (l : List Cut) : ℚ := (l.map (fun c => c.end_sec - c.start_sec)).sum

/-- Sum of the `duration_sec` fields of a keep list. -/
def sumKeep (l : List KeepSeg) : ℚ := (l.map KeepSeg.duration_sec).sum

/-- Sum of interval spans of a keep list. -/
def keepSpan (l : List KeepSeg) : ℚ := (l.map (fun k => k.end_sec - k.start_sec)).sum

/-- Separation produced by `merge_overlapping_cuts`: the next cut starts more
than 0.1 s after the previous one ends. -/
def cutSep (a b : Cut) : Prop := a.end_sec + 1 / 10 < b.start_sec

/-- Rewriting `merge_overlapping_cuts` through a computed sort. -/
theorem merge_cons_eq (l : List Cut) (x : Cut) (xs : List Cut)
    (h : List.insertionSort cutLE l = x :: xs) :
    merge_overlapping_cuts l = mergeLoop x xs := by
  unfold merge_overlapping_cuts
  rw [h]

/-- `merge_overlapping_cuts` of a list sorting to `[]` is `[]`. -/
theorem merge_nil_eq (l : List Cut) (h : List.insertionSort cutLE l = []) :
    merge_overlapping_cuts l = [] := by
  unfold merge_overlapping_cuts
  rw [h]

/-- The fold of the merge keeps the start of the running cut as the head
start of its output. -/
theorem mergeLoop_head : ∀ (rest : List Cut) (acc : Cut),
    ∃ z zs, mergeLoop acc rest = z :: zs ∧ z.start_sec = acc.start_sec := by
  intro rest
  induction rest with
  | nil => intro acc; exact ⟨acc, [], rfl, rfl⟩
  | cons c cs ih =>
    intro acc
    rw [mergeLoop]
    split
    next =>
      obtain ⟨z, zs, h1, h2⟩ := ih (mergeInto acc c)
      exact ⟨z, zs, h1, h2⟩
    next => exact ⟨acc, mergeLoop c cs, rfl, rfl⟩

/-- Every element of the merge fold output starts no earlier than the running
cut, provided the input was sorted by start. -/
theorem mergeLoop_mem_start : ∀ (rest : List Cut) (acc : Cut),
    List.Sorted cutLE (acc :: rest) →
    ∀ y ∈ mergeLoop acc rest, acc.start_sec ≤ y.start_sec := by
  intro rest
  induction rest with
  | nil =>
    intro acc _ y hy
    rw [mergeLoop] at hy
    rw [List.mem_singleton] at hy
    subst hy
    exact le_rfl
  | cons c cs ih =>
    intro acc hs y hy
    have hs' := List.sorted_cons.mp hs
    rw [mergeLoop] at hy
    split at hy
    next =>
      have hsort : List.Sorted cutLE (mergeInto acc c :: cs) := by
        rw [List.sorted_cons]
        exact ⟨fun b hb => hs'.1 b (List.mem_cons_of_mem _ hb),
          (List.sorted_cons.mp hs'.2).2⟩
      exact ih (mergeInto acc c) hsort y hy
    next =>
      rcases List.mem_cons.mp hy with h | h
      · subst h; exact le_rfl
      · exact le_trans (hs'.1 c (List.mem_cons_self c cs)) (ih c hs'.2 y h)

/-- The merge fold preserves sortedness by start. -/
theorem mergeLoop_sorted : ∀ (rest : List Cut) (acc : Cut),
    List.Sorted cutLE (acc :: rest) → List.Sorted cutLE (mergeLoop acc rest) := by
  intro rest
  induction rest with
  | nil =>
    intro acc _
    rw [mergeLoop]
    exact List.sorted_singleton acc
  | cons c cs ih =>
    intro acc hs
    have hs' := List.sorted_cons.mp hs
    rw [mergeLoop]
    split
    next =>
      apply ih
      rw [List.sorted_cons]
      exact ⟨fun b hb => hs'.1 b (List.mem_cons_of_mem _ hb),
        (List.sorted_cons.mp hs'.2).2⟩
    next =>
      rw [List.sorted_cons]
      refine ⟨fun b hb => ?_, ih c hs'.2⟩
      exact le_trans (hs'.1 c (List.mem_cons_self c cs))
        (mergeLoop_mem_start cs c hs'.2 b hb)

/-- Consecutive cuts in the merge fold output are separated by strictly more
than 0.1 s. -/
theorem mergeLoop_sep : ∀ (rest : List Cut) (acc : Cut),
    List.Chain' cutSep (mergeLoop acc rest) := by
  intro rest
  induction rest with
  | nil =>
    intro acc
    rw [mergeLoop]
    exact List.chain'_singleton acc
  | cons c cs ih =>
    intro acc
    rw [mergeLoop]
    split
    next => exact ih (mergeInto acc c)
    next h =>
      obtain ⟨z, zs, hz, hzs⟩ := mergeLoop_head cs c
      rw [hz, List.chain'_cons]
      constructor
      · show acc.end_sec + 1 / 10 < z.start_sec
        rw [hzs]
        exact lt_of_not_ge (fun hle => h hle)
      · rw [← hz]; exact ih c

/-- On a list already separated by more than 0.1 s the merge fold is the
identity. -/
theorem mergeLoop_of_sep : ∀ (rest : List Cut) (acc : Cut),
    List.Chain' cutSep (acc :: rest) → mergeLoop acc rest = acc :: rest := by
  intro rest
  induction rest with
  | nil => intro acc _; rfl
  | cons c cs ih =>
    intro acc h
    rw [List.chain'_cons] at h
    rw [mergeLoop, if_neg (by exact not_le_of_gt h.1), ih c h.2]

/-- Interval validity (`start ≤ end`) is preserved by the merge fold. -/
theorem mergeLoop_mem_valid : ∀ (rest : List Cut) (acc : Cut),
    acc.start_sec ≤ acc.end_sec → (∀ c ∈ rest, c.start_sec ≤ c.end_sec) →
    ∀ y ∈ mergeLoop acc rest, y.start_sec ≤ y.end_sec := by
  intro rest
  induction rest with
  | nil =>
    intro acc hacc _ y hy
    rw [mergeLoop, List.mem_singleton] at hy
    subst hy
    exact hacc
  | cons c cs ih =>
    intro acc hacc hrest y hy
    rw [mergeLoop] at hy
    split at hy
    next =>
      refine ih (mergeInto acc c) ?_ (fun d hd => hrest d (List.mem_cons_of_mem _ hd)) y hy
      show acc.start_sec ≤ max acc.end_sec c.end_sec
      exact le_trans hacc (le_max_left _ _)
    next =>
      rcases List.mem_cons.mp hy with h | h
      · subst h; exact hacc
      · exact ih c (hrest c (List.mem_cons_self c cs))
          (fun d hd => hrest d (List.mem_cons_of_mem _ hd)) y h

/-- Strengthening a chain relation using a per-element property. -/
theorem chain'_mono_mem {α : Type} {R S : α → α → Prop} {P : α → Prop}
    (himp : ∀ a b, P a → R a b → S a b) :
    ∀ l : List α, List.Chain' R l → (∀ x ∈ l, P x) → List.Chain' S l := by
  intro l
  induction l with
  | nil => intro _ _; exact List.chain'_nil
  | cons a l ih =>
    intro hc hp
    cases l with
    | nil => exact List.chain'_singleton a
    | cons b l' =>
      rw [List.chain'_cons] at hc ⊢
      exact ⟨himp a b (hp a (List.mem_cons_self a _)) hc.1,
        ih hc.2 (fun x hx => hp x (List.mem_cons_of_mem a hx))⟩

/-- C5: merging an already-merged cut list returns the identical list — every
field of every interval, in the same order.  (Proved for every input list,
with no validity assumption: the merged output is sorted by `start_sec` with
consecutive gaps above the 0.1 s merge tolerance, so a second merge sorts
stably into the same order and absorbs nothing.) -/
theorem c5_merge_idempotent (cuts : List Cut) :
    merge_overlapping_cuts (merge_overlapping_cuts cuts) = merge_overlapping_cuts cuts := by
  cases h : List.insertionSort cutLE cuts with
  | nil =>
    rw [merge_nil_eq cuts h, merge_nil_eq [] rfl]
  | cons x xs =>
    have h1 : merge_overlapping_cuts cuts = mergeLoop x xs := merge_cons_eq cuts x xs h
    have hsorted : List.Sorted cutLE (x :: xs) := h ▸ List.sorted_insertionSort cutLE cuts
    have hsout : List.Sorted cutLE (mergeLoop x xs) := mergeLoop_sorted xs x hsorted
    have hsep : List.Chain' cutSep (mergeLoop x xs) := mergeLoop_sep xs x
    obtain ⟨z, zs, hz, _⟩ := mergeLoop_head xs x
    have h2 : merge_overlapping_cuts (mergeLoop x xs) = mergeLoop z zs :=
      merge_cons_eq (mergeLoop x xs) z zs (by rw [hsout.insertionSort_eq, hz])
    rw [h1, h2, hz]
    exact mergeLoop_of_sep zs z (hz ▸ hsep)

/-- C10: on any input whose intervals satisfy `start_sec ≤ end_sec`, the
output of `merge_overlapping_cuts` is sorted strictly ascending by
`start_sec` and consecutive output intervals are separated by strictly more
than 0.1 s.  (Absence of mutation is inherent to the embedding: the Python
function copies each dict before updating it and the model is a pure
function of its input.) -/
theorem c10_merge_sorted_separated (cuts : List Cut)
    (h : ∀ c ∈ cuts, c.start_sec ≤ c.end_sec) :
    List.Chain' (fun a b => a.start_sec < b.start_sec ∧ a.end_sec + 1 / 10 < b.start_sec)
      (merge_overlapping_cuts cuts) := by
  cases hs : List.insertionSort cutLE cuts with
  | nil =>
    rw [merge_nil_eq cuts hs]
    exact List.chain'_nil
  | cons x xs =>
    rw [merge_cons_eq cuts x xs hs]
    have hmem : ∀ c ∈ x :: xs, c.start_sec ≤ c.end_sec := by
      intro c hc
      apply h
      have hp : c ∈ List.insertionSort cutLE cuts := by rw [hs]; exact hc
      exact (List.perm_insertionSort cutLE cuts).mem_iff.mp hp
    have hval : ∀ y ∈ mergeLoop x xs, y.start_sec ≤ y.end_sec :=
      mergeLoop_mem_valid xs x (hmem x (List.mem_cons_self x xs))
        (fun c hc => hmem c (List.mem_cons_of_mem x hc))
    refine chain'_mono_mem ?_ (mergeLoop x xs) (mergeLoop_sep xs x) hval
    intro a b hP hR
    refine ⟨?_, hR⟩
    have h10 : (0 : ℚ) < 1 / 10 := by norm_num
    calc a.start_sec ≤ a.end_sec := hP
      _ < a.end_sec + 1 / 10 := by linarith
      _ < b.start_sec := hR

/-- C10 witness: the sortedness-and-separation theorem applied to a concrete
two-cut list with overlapping valid intervals. -/
theorem c10_witness :
    (∀ c ∈ ([⟨0, 0, "a", 0, 1, 1⟩, ⟨0, 1, "b", 1/2, 2, 3/2⟩] : List Cut),
      c.start_sec ≤ c.end_sec) ∧
    List.Chain' (fun a b => a.start_sec < b.start_sec ∧ a.end_sec + 1 / 10 < b.start_sec)
      (merge_overlapping_cuts [⟨0, 0, "a", 0, 1, 1⟩, ⟨0, 1, "b", 1/2, 2, 3/2⟩]) :=
  ⟨by with_unfolding_all decide,
    c10_merge_sorted_separated [⟨0, 0, "a", 0, 1, 1⟩, ⟨0, 1, "b", 1/2, 2, 3/2⟩]
      (by with_unfolding_all decide)⟩

/-- Telescoping identity of the keep walk: the emitted keep spans, the
discarded sub-50 ms gaps and the cut spans tile `[current, duration]`
exactly. -/
theorem rawKeeps_telescope (duration : ℚ) :
    ∀ (mlist : List Cut) (current : ℚ),
      sumKeep (rawKeepsGo duration current mlist) + discardedGo duration current mlist +
        sumDur mlist = duration - current := by
  intro mlist
  induction mlist with
  | nil =>
    intro current
    rw [rawKeepsGo, discardedGo]
    by_cases h : current < duration - 1 / 20
    · rw [if_pos h, if_pos h]
      simp only [sumKeep, sumDur, List.map_cons, List.map_nil, List.sum_cons, List.sum_nil]
      ring
    · rw [if_neg h, if_neg h]
      simp only [sumKeep, sumDur, List.map_nil, List.sum_nil]
      ring
  | cons c cs ih =>
    intro current
    rw [rawKeepsGo, discardedGo]
    have hrec := ih c.end_sec
    simp only [sumKeep, sumDur] at hrec
    by_cases h : current + 1 / 20 < c.start_sec
    · rw [if_pos h, if_pos h]
      simp only [sumKeep, sumDur, List.map_cons, List.sum_cons]
      linarith
    · rw [if_neg h, if_neg h]
      simp only [sumKeep, sumDur, List.map_cons, List.sum_cons]
      linarith

/-- The jitter-filter fold, characterised: the kept intervals are the filter
of the raw list, and the dropped count and duration are the length and span
sum of the complementary filter. -/
theorem keepFold_spec (minK : ℚ) :
    ∀ (raw : List KeepSeg) (r : KeepResult),
      raw.foldl (keepStep minK) r =
        ⟨r.keeps ++ raw.filter (fun k => decide (minK ≤ k.duration_sec)),
          r.dropped_count + (raw.filter (fun k => decide (k.duration_sec < minK))).length,
          r.dropped_duration +
            sumKeep (raw.filter (fun k => decide (k.duration_sec < minK)))⟩ := by
  intro raw
  induction raw with
  | nil =>
    intro r
    simp [sumKeep]
  | cons k ks ih =>
    intro r
    rw [List.foldl_cons, ih]
    by_cases h : minK ≤ k.duration_sec
    · simp only [keepStep, if_pos h, List.filter_cons, decide_eq_true_eq,
        if_neg (not_lt.mpr h), KeepResult.mk.injEq, List.append_assoc, List.singleton_append]
    · simp only [keepStep, if_neg h, List.filter_cons, decide_eq_true_eq,
        if_pos (lt_of_not_ge h), KeepResult.mk.injEq, List.length_cons, sumKeep,
        List.map_cons, List.sum_cons]
      refine ⟨trivial, by omega, by ring⟩

/-- Splitting the span sum of a keep list along the jitter filter. -/
theorem sumKeep_filter_split (minK : ℚ) (raw : List KeepSeg) :
    sumKeep (raw.filter (fun k => decide (minK ≤ k.duration_sec))) +
      sumKeep (raw.filter (fun k => decide (k.duration_sec < minK))) = sumKeep raw := by
  induction raw with
  | nil => simp [sumKeep]
  | cons k ks ih =>
    simp only [sumKeep] at ih
    by_cases h : minK ≤ k.duration_sec
    · simp only [List.filter_cons, decide_eq_true_eq, if_pos h, if_neg (not_lt.mpr h),
        sumKeep, List.map_cons, List.sum_cons]
      linarith
    · simp only [List.filter_cons, decide_eq_true_eq, if_neg h, if_pos (lt_of_not_ge h),
        sumKeep, List.map_cons, List.sum_cons]
      linarith

/-- C3 counterexample: with the single cut `[0.02, 5]` on a 10-second
timeline (inside `[0, 10]`, `start ≤ end`) and `minKeepDur = 1`, the initial
0.02 s gap falls under the 50 ms emission threshold and is silently
discarded: merged-cut spans (4.98) plus keep spans (5) plus dropped spans (0)
sum to 9.98, not 10. -/
theorem c3_counterexample :
    sumDur (merge_overlapping_cuts [⟨0, 0, "r", 1/50, 5, 249/50⟩]) +
      sumKeep (generate_keep_segments [⟨0, 0, "r", 1/50, 5, 249/50⟩] 10 [] 1).keeps +
      (generate_keep_segments [⟨0, 0, "r", 1/50, 5, 249/50⟩] 10 [] 1).dropped_duration ≠
      10 := by
  with_unfolding_all decide

/-- C3, amended: for every cut set inside `[0, totalDuration]` with
`startSec ≤ endSec` and every `minKeepDur`, the merged-cut spans, the
returned keep spans, the dropped micro-segment spans, *and the boundary gaps
below the 50 ms emission threshold that the keep walk silently discards*
together sum to `totalDuration`. -/
theorem c3_amended (cuts : List Cut) (duration : ℚ) (words : List Word) (minK : ℚ)
    (h : ∀ c ∈ cuts, 0 ≤ c.start_sec ∧ c.start_sec ≤ c.end_sec ∧ c.end_sec ≤ duration) :
    sumDur (merge_overlapping_cuts cuts) +
      sumKeep (generate_keep_segments cuts duration words minK).keeps +
      (generate_keep_segments cuts duration words minK).dropped_duration +
      discardedGo duration 0 (merge_overlapping_cuts cuts) = duration := by
  unfold generate_keep_segments
  rw [keepFold_spec]
  have hsplit := sumKeep_filter_split minK (rawKeepsGo duration 0 (merge_overlapping_cuts cuts))
  have htel := rawKeeps_telescope duration (merge_overlapping_cuts cuts) 0
  simp only [List.nil_append, Nat.zero_add, zero_add]
  linarith

/-- C3 witness: the amended complementarity identity applied to the concrete
cut `[2, 5]` on a 10-second timeline with `minKeepDur = 1`. -/
theorem c3_witness :
    (∀ c ∈ ([⟨0, 0, "r", 2, 5, 3⟩] : List Cut),
      0 ≤ c.start_sec ∧ c.start_sec ≤ c.end_sec ∧ c.end_sec ≤ 10) ∧
    sumDur (merge_overlapping_cuts [⟨0, 0, "r", 2, 5, 3⟩]) +
      sumKeep (generate_keep_segments [⟨0, 0, "r", 2, 5, 3⟩] 10 [] 1).keeps +
      (generate_keep_segments [⟨0, 0, "r", 2, 5, 3⟩] 10 [] 1).dropped_duration +
      discardedGo 10 0 (merge_overlapping_cuts [⟨0, 0, "r", 2, 5, 3⟩]) = 10 :=
  ⟨by with_unfolding_all decide,
    c3_amended [⟨0, 0, "r", 2, 5, 3⟩] 10 [] 1 (by with_unfolding_all decide)⟩

/-- C4 counterexample: the function's return value in the source is the keep
list alone, so it cannot carry the dropped-segment report — two inputs with
identical returned keep lists have different dropped counts (0 and 1) and
dropped durations (0 and 0.3 s).  Input A is the single cut `[5, 35]`; input
B is the cuts `[5, 34.5]` and `[34.8, 35]`, whose 0.3 s middle keep interval
is dropped by the jitter filter.  Both return keeps `[0, 5], [35, 40]`. -/
theorem c4_counterexample :
    (generate_keep_segments [⟨0, 0, "a", 5, 35, 30⟩] 40 [] 1).keeps =
      (generate_keep_segments [⟨0, 0, "b", 5, 69/2, 59/2⟩, ⟨0, 0, "c", 174/5, 35, 1/5⟩]
        40 [] 1).keeps ∧
    (generate_keep_segments [⟨0, 0, "a", 5, 35, 30⟩] 40 [] 1).dropped_count ≠
      (generate_keep_segments [⟨0, 0, "b", 5, 69/2, 59/2⟩, ⟨0, 0, "c", 174/5, 35, 1/5⟩]
        40 [] 1).dropped_count := by
  with_unfolding_all decide

/-- C4, amended: `generate_keep_segments` computes the dropped count and
total dropped duration, but only surfaces them in its console note; its
return value is exactly the jitter-filtered keep list, with the dropped
statistics living in the print-only side channel (modelled here as the
`dropped_count` / `dropped_duration` components alongside the returned
`keeps`). -/
theorem c4_amended (cuts : List Cut) (duration : ℚ) (words : List Word) (minK : ℚ) :
    generate_keep_segments cuts duration words minK =
      ⟨(rawKeepsGo duration 0 (merge_overlapping_cuts cuts)).filter
          (fun k => decide (minK ≤ k.duration_sec)),
        ((rawKeepsGo duration 0 (merge_overlapping_cuts cuts)).filter
          (fun k => decide (k.duration_sec < minK))).length,
        sumKeep ((rawKeepsGo duration 0 (merge_overlapping_cuts cuts)).filter
          (fun k => decide (k.duration_sec < minK)))⟩ := by
  unfold generate_keep_segments
  rw [keepFold_spec]
  simp

/-- C6: the boundary-selection scenario — 600 s timeline, target 180, min
150, max 210, search window 30, a single silence gap of duration 1.2 s
centred at 175 s with confidence 1 and no energy samples.  The first chosen
split after 0 is exactly 175 (score 0.95 beats the fallback), not the forced
value 180. -/
theorem c6_boundary_selection :
    find_split_points 10 [] 600 180 150 210 30 [⟨175, 6/5, 1⟩] = [0, 175, 355, 535] ∧
    (175 : ℚ) ≠ 180 := by
  with_unfolding_all decide

/-- Python `max(..., key=...)` returns one of its arguments. -/
theorem pickFirstMax_mem {α : Type} (score : α → ℚ) :
    ∀ (l : List α) (best : α), pickFirstMax score best l ∈ best :: l := by
  intro l
  induction l with
  | nil =>
    intro best
    rw [pickFirstMax]
    exact List.mem_cons_self _ _
  | cons x xs ih =>
    intro best
    rw [pickFirstMax]
    rcases List.mem_cons.mp (ih (if score best < score x then x else best)) with h1 | h1
    · rw [h1]
      split
      · exact List.mem_cons_of_mem _ (List.mem_cons_self x xs)
      · exact List.mem_cons_self _ _
    · exact List.mem_cons_of_mem _ (List.mem_cons_of_mem _ h1)

/-- Python `min(..., key=...)` returns one of its arguments. -/
theorem pickFirstMin_mem {α : Type} (score : α → ℚ) :
    ∀ (l : List α) (best : α), pickFirstMin score best l ∈ best :: l := by
  intro l
  induction l with
  | nil =>
    intro best
    rw [pickFirstMin]
    exact List.mem_cons_self _ _
  | cons x xs ih =>
    intro best
    rw [pickFirstMin]
    rcases List.mem_cons.mp (ih (if score x < score best then x else best)) with h1 | h1
    · rw [h1]
      split
      · exact List.mem_cons_of_mem _ (List.mem_cons_self x xs)
      · exact List.mem_cons_self _ _
    · exact List.mem_cons_of_mem _ (List.mem_cons_of_mem _ h1)

/-- A silence gap chosen by priority 1 lies inside the search window. -/
theorem pickGap_bounds (gaps : List Gap) (sstart send target_pos win t : ℚ)
    (h : pickGap gaps sstart send target_pos win = some t) :
    sstart ≤ t ∧ t ≤ send := by
  unfold pickGap at h
  split at h
  next => exact absurd h (by simp)
  next g gs hfilter =>
    rw [Option.some.injEq] at h
    have hmem : pickFirstMax (gapScore target_pos win) g gs ∈ g :: gs :=
      pickFirstMax_mem _ gs g
    rw [← hfilter] at hmem
    have hp := List.of_mem_filter hmem
    rw [← h]
    simpa using hp

/-- An energy sample chosen by priority 2 lies inside the search window. -/
theorem pickEnergy_bounds (energy : List EPoint) (sstart send t : ℚ)
    (h : pickEnergy energy sstart send = some t) :
    sstart ≤ t ∧ t ≤ send := by
  unfold pickEnergy at h
  split at h
  next => exact absurd h (by simp)
  next e es hfilter =>
    rw [Option.some.injEq] at h
    have hmem : pickFirstMin EPoint.level e es ∈ e :: es :=
      pickFirstMin_mem _ es e
    rw [← hfilter] at hmem
    have hp := List.of_mem_filter hmem
    rw [← h]
    simpa using hp

/-- Each iteration of the greedy loop advances by at least `minDur` and at
most `maxDur`, given `minDur ≤ targetDur ≤ maxDur`: candidates are filtered
to the admissible window and the forced fallback is `targetDur` away. -/
theorem fspStep_bounds (energy : List EPoint) (gaps : List Gap)
    (total target mn mx win current : ℚ) (h2 : mn ≤ target) (h3 : target ≤ mx) :
    current + mn ≤ fspStep energy gaps total target mn mx win current ∧
      fspStep energy gaps total target mn mx win current ≤ current + mx := by
  unfold fspStep
  split
  next t hg =>
    have hb := pickGap_bounds _ _ _ _ _ _ hg
    exact ⟨le_trans (le_max_left _ _) hb.1,
      le_trans hb.2 (le_trans (min_le_right _ _) (min_le_right _ _))⟩
  next =>
    split
    next t he =>
      have hb := pickEnergy_bounds _ _ _ _ he
      exact ⟨le_trans (le_max_left _ _) hb.1,
        le_trans hb.2 (le_trans (min_le_right _ _) (min_le_right _ _))⟩
    next => exact ⟨by linarith, by linarith⟩

/-- Consecutive split points produced by the greedy loop are between `minDur`
and `maxDur` apart. -/
theorem fspGo_chain (energy : List EPoint) (gaps : List Gap)
    (total target mn mx win : ℚ) (h2 : mn ≤ target) (h3 : target ≤ mx) :
    ∀ (fuel : ℕ) (current : ℚ),
      List.Chain' (fun a b => a + mn ≤ b ∧ b ≤ a + mx)
        (current :: fspGo energy gaps total target mn mx win fuel current) := by
  intro fuel
  induction fuel with
  | zero =>
    intro current
    rw [fspGo]
    exact List.chain'_singleton current
  | succ n ih =>
    intro current
    rw [fspGo]
    by_cases hc : current + mn < total
    · rw [if_pos hc, List.chain'_cons]
      exact ⟨fspStep_bounds energy gaps total target mn mx win current h2 h3,
        ih (fspStep energy gaps total target mn mx win current)⟩
    · rw [if_neg hc]
      exact List.chain'_singleton current

/-- C7 counterexample: on the fixed-interval fallback path (both candidate
lists empty) with `totalDuration = 10`, `targetDur = 2.7`, `minDur = 2.5`,
`maxDur = 3`, `searchWindow = 1` — bounds satisfying
`0 < minDur ≤ targetDur ≤ maxDur` and `searchWindow > 0` — the returned list
is `[0, 2, 4, 6, 8]`: consecutive splits are `int(targetDur) = 2` apart,
which is *less* than `minDur = 2.5`. -/
theorem c7_counterexample :
    find_split_points 5 [] 10 (27/10) (5/2) 3 1 [] = [0, 2, 4, 6, 8] ∧
    ((0 : ℚ) < 5/2 ∧ (5/2 : ℚ) ≤ 27/10 ∧ (27/10 : ℚ) ≤ 3 ∧ (0 : ℚ) < 1) ∧
    ¬ ((0 : ℚ) + 5/2 ≤ 2) := by
  refine ⟨by with_unfolding_all decide, by norm_num, by norm_num⟩

/-- C7, amended: under `0 < minDur ≤ targetDur ≤ maxDur` and
`searchWindow > 0`, and provided at least one candidate list is nonempty (so
the greedy loop runs rather than the fixed-interval fallback), the returned
list starts at 0 and every two consecutive split timestamps are at least
`minDur` and at most `maxDur` apart (hence strictly increasing); on the
fixed-interval fallback the splits are `int(targetDur)` apart, which can
undershoot a fractional `minDur`. -/
theorem c7_amended (fuel : ℕ) (energy : List EPoint) (gaps : List Gap)
    (total target mn mx win : ℚ)
    (h1 : 0 < mn) (h2 : mn ≤ target) (h3 : target ≤ mx) (h4 : 0 < win)
    (hcand : energy ≠ [] ∨ gaps ≠ []) :
    (find_split_points fuel energy total target mn mx win gaps).head? = some 0 ∧
    List.Chain' (fun a b => a + mn ≤ b ∧ b ≤ a + mx)
      (find_split_points fuel energy total target mn mx win gaps) := by
  have hne : ¬ ((energy.isEmpty && gaps.isEmpty) = true) := by
    simp only [Bool.and_eq_true, List.isEmpty_iff]
    rintro ⟨he, hg⟩
    rcases hcand with h | h
    · exact h he
    · exact h hg
  unfold find_split_points
  rw [if_neg hne]
  exact ⟨rfl, fspGo_chain energy gaps total target mn mx win h2 h3 fuel 0⟩

/-- C7 witness: the amended split-spacing theorem applied to a 400-second
timeline with the C6 candidate gap, standard bounds and fuel 10, whose run
exercises both the candidate branch and the forced fallback. -/
theorem c7_witness :
    (find_split_points 10 [] 400 180 150 210 30 [⟨175, 6/5, 1⟩]).head? = some 0 ∧
    List.Chain' (fun a b => a + 150 ≤ b ∧ b ≤ a + 210)
      (find_split_points 10 [] 400 180 150 210 30 [⟨175, 6/5, 1⟩]) :=
  c7_amended 10 [] [⟨175, 6/5, 1⟩] 400 180 150 210 30 (by norm_num) (by norm_num)
    (by norm_num) (by norm_num) (Or.inr (by simp))

/-- Chunk records built by `split_video_at_points` tile exactly: each chunk's
end is the next chunk's start. -/
theorem chunksFrom_head_eq (total : ℚ) (i : ℕ) (s : ℚ) (rest : List ℚ) :
    chunksFrom total i (s :: rest) =
      ⟨i, s, rest.headD total, rest.headD total - s⟩ :: chunksFrom total (i + 1) rest := by
  rw [chunksFrom]

/-- The chunk list is chained: consecutive chunks share their boundary. -/
theorem chunksFrom_chain (total : ℚ) :
    ∀ (sps : List ℚ) (i : ℕ),
      List.Chain' (fun a b => a.«end» = b.start) (chunksFrom total i sps) := by
  intro sps
  induction sps with
  | nil =>
    intro i
    rw [chunksFrom]
    exact List.chain'_nil
  | cons s rest ih =>
    intro i
    rw [chunksFrom_head_eq, List.chain'_cons']
    refine ⟨?_, ih (i + 1)⟩
    intro y hy
    cases rest with
    | nil =>
      rw [chunksFrom] at hy
      simp at hy
    | cons t ts =>
      rw [chunksFrom_head_eq] at hy
      rw [List.head?_cons, Option.mem_def, Option.some.injEq] at hy
      subst hy
      rfl

/-- The last chunk ends at `totalDuration`. -/
theorem chunksFrom_last (total : ℚ) :
    ∀ (sps : List ℚ) (i : ℕ), sps ≠ [] →
      (chunksFrom total i sps).getLast?.map (fun c => c.«end») = some total := by
  intro sps
  induction sps with
  | nil => intro i h; exact absurd rfl h
  | cons s rest ih =>
    intro i _
    cases rest with
    | nil =>
      rw [chunksFrom_head_eq, chunksFrom]
      rfl
    | cons t ts =>
      rw [chunksFrom_head_eq, chunksFrom_head_eq, List.getLast?_cons_cons]
      have := ih (i + 1) (by simp)
      rw [chunksFrom_head_eq] at this
      exact this

/-- The head clip of the main grouping loop starts at the current cursor. -/
theorem groupGo_head_props (words : List Word) (boundaries : List ℕ) (target mx : ℚ) :
    ∀ (fuel clip_id current : ℕ) (y : Clip),
      y ∈ (groupGo words boundaries target mx fuel clip_id current).head? →
      y.start_idx = current ∧ y.start_sec = (wordD words current).start ∧
        current < words.length := by
  intro fuel clip_id current y hy
  cases fuel with
  | zero =>
    rw [groupGo] at hy
    simp at hy
  | succ n =>
    rw [groupGo] at hy
    by_cases h : current < words.length
    · rw [if_pos h, List.head?_cons, Option.mem_def, Option.some.injEq] at hy
      subst hy
      exact ⟨rfl, rfl, h⟩
    · rw [if_neg h] at hy
      simp at hy

/-- C9 core: in every emitted clip the end index is at least the start index,
the start index is a valid word position (so the clip holds at least one
word), and each clip resumes exactly one word after its predecessor ends —
the strict-progress invariant of the grouping loop. -/
theorem groupGo_idx_props (words : List Word) (boundaries : List ℕ) (target mx : ℚ) :
    ∀ (fuel clip_id current : ℕ),
      List.Chain' (fun a b => b.start_idx = a.end_idx + 1)
        (groupGo words boundaries target mx fuel clip_id current) ∧
      ∀ c ∈ groupGo words boundaries target mx fuel clip_id current,
        c.start_idx ≤ c.end_idx ∧ c.start_idx < words.length ∧ 1 ≤ c.word_count := by
  intro fuel
  induction fuel with
  | zero =>
    intro clip_id current
    rw [groupGo]
    exact ⟨List.chain'_nil, by simp⟩
  | succ n ih =>
    intro clip_id current
    rw [groupGo]
    by_cases h : current < words.length
    · rw [if_pos h]
      obtain ⟨ihc, ihm⟩ := ih (clip_id + 1) (bestOf words boundaries target mx current + 1)
      constructor
      · rw [List.chain'_cons']
        refine ⟨?_, ihc⟩
        intro y hy
        obtain ⟨hyi, _, _⟩ := groupGo_head_props words boundaries target mx n
          (clip_id + 1) (bestOf words boundaries target mx current + 1) y hy
        rw [hyi]
        rfl
      · intro c hc
        rcases List.mem_cons.mp hc with hc | hc
        · subst hc
          refine ⟨bestOf_ge words boundaries target mx current, h, ?_⟩
          show 1 ≤ ((words.take (bestOf words boundaries target mx current + 1)).drop
            current).length
          rw [List.length_drop, List.length_take]
          have := bestOf_ge words boundaries target mx current
          omega
        · exact ihm c hc
    · rw [if_neg h]
      exact ⟨List.chain'_nil, by simp⟩

/-- The grouping loop gives the same clips for any fuel beyond the remaining
word count: the Python while-loop terminates within `len(words)` iterations
because every iteration advances `current_idx` by at least one. -/
theorem groupGo_fuel_stable (words : List Word) (boundaries : List ℕ) (target mx : ℚ) :
    ∀ (n m clip_id current : ℕ), words.length < current + n → words.length < current + m →
      groupGo words boundaries target mx n clip_id current =
        groupGo words boundaries target mx m clip_id current := by
  intro n
  induction n with
  | zero =>
    intro m clip_id current hn _
    cases m with
    | zero => rfl
    | succ m' =>
      rw [groupGo, groupGo, if_neg (by omega : ¬ current < words.length)]
  | succ n ih =>
    intro m clip_id current hn hm
    cases m with
    | zero =>
      rw [groupGo, groupGo, if_neg (by omega : ¬ current < words.length)]
    | succ m' =>
      rw [groupGo, groupGo]
      by_cases h : current < words.length
      · rw [if_pos h, if_pos h]
        have hb := bestOf_ge words boundaries target mx current
        rw [ih m' (clip_id + 1) (bestOf words boundaries target mx current + 1)
          (by omega) (by omega)]
      · rw [if_neg h, if_neg h]

/-- Consecutive clips do not overlap in time when the token stream is sorted
and non-overlapping: each clip ends at its last word's end, and the next
clip starts at the very next word's start. -/
theorem groupGo_sec_chain (words : List Word) (boundaries : List ℕ) (target mx : ℚ)
    (hw : List.Chain' (fun a b => a.«end» ≤ b.start) words) :
    ∀ (fuel clip_id current : ℕ),
      List.Chain' (fun a b => a.end_sec ≤ b.start_sec)
        (groupGo words boundaries target mx fuel clip_id current) := by
  intro fuel
  induction fuel with
  | zero =>
    intro clip_id current
    rw [groupGo]
    exact List.chain'_nil
  | succ n ih =>
    intro clip_id current
    rw [groupGo]
    by_cases h : current < words.length
    · rw [if_pos h, List.chain'_cons']
      refine ⟨?_, ih (clip_id + 1) _⟩
      intro y hy
      obtain ⟨hyi, hysec, hylt⟩ := groupGo_head_props words boundaries target mx n
        (clip_id + 1) (bestOf words boundaries target mx current + 1) y hy
      show (wordD words (bestOf words boundaries target mx current)).«end» ≤ y.start_sec
      rw [hysec]
      have hb2 : bestOf words boundaries target mx current + 1 < words.length := hylt
      have hb1 : bestOf words boundaries target mx current < words.length := by omega
      rw [wordD, wordD, List.getD_eq_get _ _ hb1, List.getD_eq_get _ _ hb2]
      exact List.chain'_iff_get.mp hw (bestOf words boundaries target mx current) (by omega)
    · rw [if_neg h]
      exact List.chain'_nil

/-- C9: `group_into_clips` terminates on every finite word list — the model
is a total function whose loop gives the same clips for every fuel beyond
the word count, because `best_end_idx` is at least the clip's start index
and `current_idx` strictly increases by at least one per emitted clip; every
emitted clip starts exactly one word after its predecessor ends, has
`start_idx ≤ end_idx`, and contains at least one word. -/
theorem c9_group_progress (words : List Word) (boundaries : List ℕ) (mx mn target : ℚ) :
    List.Chain' (fun a b => b.start_idx = a.end_idx + 1)
      (group_into_clips words boundaries mx mn target) ∧
    (∀ c ∈ group_into_clips words boundaries mx mn target,
      c.start_idx ≤ c.end_idx ∧ c.start_idx < words.length ∧ 1 ≤ c.word_count) ∧
    (∀ fuel : ℕ, words.length < fuel →
      groupGo words (effBoundaries words boundaries target) target mx fuel 1 0 =
        groupGo words (effBoundaries words boundaries target) target mx
          (words.length + 1) 1 0) := by
  refine ⟨?_, ?_, ?_⟩
  · unfold group_into_clips
    split
    next => exact List.chain'_nil
    next =>
      exact (groupGo_idx_props words (effBoundaries words boundaries target) target mx
        (words.length + 1) 1 0).1
  · intro c hc
    unfold group_into_clips at hc
    split at hc
    next => exact absurd hc (List.not_mem_nil c)
    next =>
      exact (groupGo_idx_props words (effBoundaries words boundaries target) target mx
        (words.length + 1) 1 0).2 c hc
  · intro fuel hf
    exact groupGo_fuel_stable words (effBoundaries words boundaries target) target mx
      fuel (words.length + 1) 1 0 (by omega) (by omega)

/-- C1 counterexample: a word list whose first word starts at 1 s.  The clip
list produced by the pause-based segmenter starts at `startSec = 1`, not 0 —
clips cover the word stream, not the timeline — so the segmenter's output is
not a partition of `[0, totalDuration]` (the deviation, 1 s, is far above
the 1e-6 tolerance). -/
theorem c1_counterexample :
    (group_into_clips [⟨"a", 1, 2, 0⟩] [0] 15 3 10).head?.map Clip.start_sec = some 1 ∧
    (1 : ℚ) ≠ 0 := by
  with_unfolding_all decide

/-- A nonempty `range(0, stop, step)` starts at 0. -/
theorem pyRange_head (stop step : ℤ) (h : pyRange stop step ≠ []) :
    ∃ rest, pyRange stop step = 0 :: rest := by
  unfold pyRange at h ⊢
  by_cases hs : 0 < step
  · rw [if_pos hs] at h ⊢
    cases hn : ((stop + step - 1) / step).toNat with
    | zero =>
      rw [hn] at h
      simp at h
    | succ n =>
      rw [List.range_succ_eq_map, List.map_cons, Nat.cast_zero, zero_mul]
      exact ⟨_, rfl⟩
  · rw [if_neg hs] at h
    exact absurd rfl h

/-- Whenever `find_split_points` returns any splits at all — on the greedy
path always, on the fixed-interval fallback whenever the range is nonempty —
the first split is 0. -/
theorem find_split_points_head (fuel : ℕ) (energy : List EPoint)
    (total target mn mx win : ℚ) (gaps : List Gap)
    (h : find_split_points fuel energy total target mn mx win gaps ≠ []) :
    ∃ rest, find_split_points fuel energy total target mn mx win gaps = 0 :: rest := by
  unfold find_split_points at h ⊢
  by_cases hb : (energy.isEmpty && gaps.isEmpty) = true
  · rw [if_pos hb] at h ⊢
    have hp : pyRange (pyInt total) (pyInt target) ≠ [] := by
      intro hnil
      rw [hnil] at h
      exact h rfl
    obtain ⟨rest, hrest⟩ := pyRange_head _ _ hp
    rw [hrest, List.map_cons, Int.cast_zero]
    exact ⟨_, rfl⟩
  · rw [if_neg hb]
    exact ⟨_, rfl⟩

/-- C1, amended: the partition invariant holds for the Constrained
Split-Point Selector path whenever `find_split_points` returns a nonempty
split list — on the greedy path always, and on the fixed-interval fallback
except the degenerate corner where the range is empty (`totalDuration < 1`,
or a non-positive step `int(targetDur)`): the chunk list built by
`split_video_at_points` starts at 0, each chunk's end equals the next
chunk's start exactly, and the last chunk ends at `totalDuration`.  For the
Pause-Based Segmenter, the clip list is only ordered and non-overlapping
(each clip ends no later than the next one starts, given a sorted,
non-overlapping token stream): its first clip starts at the first word's
start and inter-word pauses remain as gaps between clips, so it is not in
general a partition of the timeline. -/
theorem c1_amended (fuel : ℕ) (energy : List EPoint) (gaps : List Gap)
    (total target mn mx win : ℚ) (words : List Word) (boundaries : List ℕ)
    (cmx cmn ctgt : ℚ)
    (hne : find_split_points fuel energy total target mn mx win gaps ≠ [])
    (hw : List.Chain' (fun a b => a.«end» ≤ b.start) words) :
    ((split_video_at_points (find_split_points fuel energy total target mn mx win gaps)
        total).head?.map Chunk.start = some 0 ∧
      List.Chain' (fun a b => a.«end» = b.start)
        (split_video_at_points (find_split_points fuel energy total target mn mx win gaps)
          total) ∧
      (split_video_at_points (find_split_points fuel energy total target mn mx win gaps)
        total).getLast?.map (fun c => c.«end») = some total) ∧
    List.Chain' (fun a b => a.end_sec ≤ b.start_sec)
      (group_into_clips words boundaries cmx cmn ctgt) := by
  constructor
  · obtain ⟨rest, hfs⟩ := find_split_points_head fuel energy total target mn mx win gaps hne
    rw [hfs]
    unfold split_video_at_points
    refine ⟨?_, chunksFrom_chain total _ 0, chunksFrom_last total _ 0 (by simp)⟩
    rw [chunksFrom_head_eq]
    rfl
  · unfold group_into_clips
    split
    next => exact List.chain'_nil
    next =>
      exact groupGo_sec_chain words (effBoundaries words boundaries ctgt) ctgt cmx hw
        (words.length + 1) 1 0

/-- C1 witness: the amended theorem at concrete inputs — the fixed-interval
fallback on a 10-second timeline with a 3-second target (both candidate
lists empty), whose chunks tile `[0, 10]` exactly, and a two-word stream
with a pause between the words. -/
theorem c1_witness :
    ((split_video_at_points (find_split_points 5 [] 10 3 3 3 1 []) 10).head?.map
        Chunk.start = some 0 ∧
      List.Chain' (fun a b => a.«end» = b.start)
        (split_video_at_points (find_split_points 5 [] 10 3 3 3 1 []) 10) ∧
      (split_video_at_points (find_split_points 5 [] 10 3 3 3 1 []) 10).getLast?.map
        (fun c => c.«end») = some 10) ∧
    List.Chain' (fun a b => a.end_sec ≤ b.start_sec)
      (group_into_clips [⟨"a", 0, 1, 0⟩, ⟨"b", 2, 3, 0⟩] [0, 1] 15 3 10) :=
  c1_amended 5 [] [] 10 3 3 3 1 [⟨"a", 0, 1, 0⟩, ⟨"b", 2, 3, 0⟩] [0, 1] 15 3 10
    (by with_unfolding_all decide)
    (by rw [List.chain'_pair]; show (1 : ℚ) ≤ 2; norm_num)

/-- A chained list of intervals (each with nonnegative extent) is pairwise
ordered: the chain relation composes through the per-element extent. -/
theorem chain_to_pairwise {α : Type} (f g : α → ℚ) :
    ∀ (l : List α), (∀ x ∈ l, f x ≤ g x) → List.Chain' (fun a b => g a ≤ f b) l →
      List.Pairwise (fun a b => g a ≤ f b) l := by
  intro l
  induction l with
  | nil => intro _ _; exact List.Pairwise.nil
  | cons a l ih =>
    intro hfg hc
    rw [List.pairwise_cons]
    have hc' := List.chain'_cons'.mp hc
    have hpl := ih (fun x hx => hfg x (List.mem_cons_of_mem a hx)) hc'.2
    refine ⟨?_, hpl⟩
    intro b hb
    cases l with
    | nil => simp at hb
    | cons c l' =>
      have hac : g a ≤ f c := hc'.1 c rfl
      rcases List.mem_cons.mp hb with hb' | hb'
      · rw [hb']; exact hac
      · have hcb := (List.pairwise_cons.mp hpl).1 b hb'
        have hcc : f c ≤ g c := hfg c (List.mem_cons_of_mem a (List.mem_cons_self c l'))
        linarith

/-- Words remapped inside one kept segment stay sorted and non-overlapping:
the per-segment shift is a common constant. -/
theorem mapSeg_pairwise (off : ℚ) (seg : KeepSeg) (words : List Word)
    (hp : List.Pairwise (fun a b : Word => a.«end» ≤ b.start) words) :
    List.Pairwise (fun a b : MappedWord => a.«end» ≤ b.start) (mapSeg off seg words) := by
  unfold mapSeg
  refine List.Pairwise.filterMap _ ?_ hp
  intro a a' hab x hx y hy
  rw [Option.mem_def] at hx hy
  split at hx
  next =>
    rw [Option.some.injEq] at hx
    split at hy
    next =>
      rw [Option.some.injEq] at hy
      subst hx
      subst hy
      show a.«end» - seg.start_sec + off ≤ a'.start - seg.start_sec + off
      linarith
    next => exact absurd hy (by simp)
  next => exact absurd hx (by simp)

/-- Every word remapped inside one kept segment lands between the running
offset and the offset advanced by the segment's span. -/
theorem mapSeg_bounds (off : ℚ) (seg : KeepSeg) (words : List Word)
    (hw1 : ∀ w ∈ words, w.start ≤ w.«end») :
    ∀ m ∈ mapSeg off seg words,
      off ≤ m.start ∧ m.start ≤ m.«end» ∧
        m.«end» ≤ off + (seg.end_sec - seg.start_sec) := by
  intro m hm
  unfold mapSeg at hm
  rw [List.mem_filterMap] at hm
  obtain ⟨w, hwmem, hw⟩ := hm
  split at hw
  next h =>
    rw [Option.some.injEq] at hw
    subst hw
    have hse := hw1 w hwmem
    refine ⟨?_, ?_, ?_⟩
    · show off ≤ w.start - seg.start_sec + off
      linarith [h.1]
    · show w.start - seg.start_sec + off ≤ w.«end» - seg.start_sec + off
      linarith
    · show w.«end» - seg.start_sec + off ≤ off + (seg.end_sec - seg.start_sec)
      linarith [h.2]
  next => exact absurd hw (by simp)

/-- Kept segments have nonnegative spans. -/
theorem keepSpan_nonneg : ∀ (l : List KeepSeg),
    (∀ k ∈ l, k.start_sec ≤ k.end_sec) → 0 ≤ keepSpan l := by
  intro l
  induction l with
  | nil => intro _; simp [keepSpan]
  | cons k ks ih =>
    intro h
    have h1 := h k (List.mem_cons_self _ _)
    have h2 := ih (fun x hx => h x (List.mem_cons_of_mem _ hx))
    simp only [keepSpan, List.map_cons, List.sum_cons]
    simp only [keepSpan] at h2
    linarith

/-- Every remapped word lands between the running offset and the offset
advanced by the total span of the remaining kept segments. -/
theorem mapGo_bounds (words : List Word) (hw1 : ∀ w ∈ words, w.start ≤ w.«end») :
    ∀ (kept : List KeepSeg) (off : ℚ), (∀ k ∈ kept, k.start_sec ≤ k.end_sec) →
      ∀ m ∈ mapGo words off kept,
        off ≤ m.start ∧ m.start ≤ m.«end» ∧ m.«end» ≤ off + keepSpan kept := by
  intro kept
  induction kept with
  | nil =>
    intro off _ m hm
    rw [mapGo] at hm
    simp at hm
  | cons seg rest ih =>
    intro off hk m hm
    have hseg : seg.start_sec ≤ seg.end_sec := hk seg (List.mem_cons_self _ _)
    have hrest : ∀ k ∈ rest, k.start_sec ≤ k.end_sec :=
      fun k hk' => hk k (List.mem_cons_of_mem _ hk')
    have hspan : keepSpan (seg :: rest) = (seg.end_sec - seg.start_sec) + keepSpan rest := by
      simp [keepSpan]
    have hrnn := keepSpan_nonneg rest hrest
    rw [mapGo, List.mem_append] at hm
    rcases hm with hm | hm
    · obtain ⟨h1, h2, h3⟩ := mapSeg_bounds off seg words hw1 m hm
      rw [hspan]
      refine ⟨h1, h2, by linarith⟩
    · obtain ⟨h1, h2, h3⟩ := ih (off + (seg.end_sec - seg.start_sec)) hrest m hm
      rw [hspan]
      refine ⟨by linarith, h2, by linarith⟩

/-- The full remap output is pairwise sorted and non-overlapping across
segment groups. -/
theorem mapGo_pairwise (words : List Word)
    (hw1 : ∀ w ∈ words, w.start ≤ w.«end»)
    (hp : List.Pairwise (fun a b : Word => a.«end» ≤ b.start) words) :
    ∀ (kept : List KeepSeg) (off : ℚ), (∀ k ∈ kept, k.start_sec ≤ k.end_sec) →
      List.Pairwise (fun a b : MappedWord => a.«end» ≤ b.start) (mapGo words off kept) := by
  intro kept
  induction kept with
  | nil =>
    intro off _
    rw [mapGo]
    exact List.Pairwise.nil
  | cons seg rest ih =>
    intro off hk
    have hrest : ∀ k ∈ rest, k.start_sec ≤ k.end_sec :=
      fun k hk' => hk k (List.mem_cons_of_mem _ hk')
    rw [mapGo, List.pairwise_append]
    refine ⟨mapSeg_pairwise off seg words hp, ih _ hrest, ?_⟩
    intro a ha b hb
    have hA := mapSeg_bounds off seg words hw1 a ha
    have hB := mapGo_bounds words hw1 rest (off + (seg.end_sec - seg.start_sec)) hrest b hb
    linarith [hA.2.2, hB.1]

/-- C2 counterexample: a single token `[0, 1]` and a single kept interval
`[0, 5]` (both satisfying the claim's ordering hypotheses).  The remapped
stream is the single token `[0, 1]`, so the final token's new end time is 1,
while the sum of kept-interval durations is 5 — the claimed equality fails. -/
theorem c2_counterexample :
    map_timestamps_to_trimmed [⟨"a", 0, 1, 0⟩] [⟨0, 5, 5⟩] =
      [⟨"a", 0, 1, 0, 1000, 0, 1⟩] ∧
    keepSpan [(⟨0, 5, 5⟩ : KeepSeg)] = 5 ∧ (1 : ℚ) ≠ 5 := by
  with_unfolding_all decide

/-- C2, amended: for every sorted, non-overlapping token stream and every
chronologically ordered, non-overlapping kept-interval list, the remapped
stream is still sorted and non-overlapping, and every output token's new end
time — in particular the final one's — is *at most* the sum of kept-interval
durations (equality only when the last retained token ends exactly at the
final kept interval's end). -/
theorem c2_amended (words : List Word) (kept : List KeepSeg)
    (hw1 : ∀ w ∈ words, w.start ≤ w.«end»)
    (hw2 : List.Chain' (fun a b : Word => a.«end» ≤ b.start) words)
    (hk1 : ∀ k ∈ kept, k.start_sec ≤ k.end_sec)
    (hk2 : List.Chain' (fun a b : KeepSeg => a.end_sec ≤ b.start_sec) kept) :
    List.Chain' (fun a b : MappedWord => a.«end» ≤ b.start)
      (map_timestamps_to_trimmed words kept) ∧
    ∀ m ∈ map_timestamps_to_trimmed words kept,
      m.start ≤ m.«end» ∧ m.«end» ≤ keepSpan kept := by
  have hp := chain_to_pairwise Word.start (fun w => w.«end») words hw1 hw2
  constructor
  · exact (mapGo_pairwise words hw1 hp kept 0 hk1).chain'
  · intro m hm
    have hb := mapGo_bounds words hw1 kept 0 hk1 m hm
    exact ⟨hb.2.1, by linarith [hb.2.2]⟩

/-- C2 witness: the amended remap theorem at the counterexample's concrete
input, where the hypotheses hold. -/
theorem c2_witness :
    List.Chain' (fun a b : MappedWord => a.«end» ≤ b.start)
      (map_timestamps_to_trimmed [⟨"a", 0, 1, 0⟩] [⟨0, 5, 5⟩]) ∧
    ∀ m ∈ map_timestamps_to_trimmed [⟨"a", 0, 1, 0⟩] [⟨0, 5, 5⟩],
      m.start ≤ m.«end» ∧ m.«end» ≤ keepSpan [(⟨0, 5, 5⟩ : KeepSeg)] :=
  c2_amended [⟨"a", 0, 1, 0⟩] [⟨0, 5, 5⟩]
    (by intro w hw; rw [List.mem_singleton] at hw; rw [hw]; norm_num)
    (List.chain'_singleton _)
    (by intro k hk; rw [List.mem_singleton] at hk; rw [hk]; norm_num)
    (List.chain'_singleton _)

/-- C8 counterexample: with two words and the cut `start_word_idx = -1,
end_word_idx = -1`, the validation step does *not* skip the cut (negative
indices pass the `>= len(words)` check); it is retained and enriched by
Python's wrap-around indexing from the *last* word (`start_sec = 2`). -/
theorem c8_counterexample :
    (validate_cuts [⟨"a", 0, 1, 0⟩, ⟨"b", 2, 3, 0⟩] [⟨-1, -1, "neg"⟩]).length = 1 ∧
    (validate_cuts [⟨"a", 0, 1, 0⟩, ⟨"b", 2, 3, 0⟩] [⟨-1, -1, "neg"⟩]).head?.map
      Cut.start_sec = some 2 := by
  with_unfolding_all decide

/-- C8, amended: cuts whose `start_word_idx` or `end_word_idx` is at least
`len(words)` are skipped, one by one, and processing continues; every cut
with *nonnegative* in-range indices is retained, in order, enriched with the
referenced words' start/end timestamps.  Negative indices are not validated:
they pass the check and are resolved by Python's wrap-around indexing
(see the counterexample). -/
theorem c8_amended (words : List Word) (cuts : List RawCut)
    (h : ∀ c ∈ cuts, 0 ≤ c.start_word_idx ∧ 0 ≤ c.end_word_idx) :
    validate_cuts words cuts =
      (cuts.filter (fun c => decide (c.start_word_idx < (words.length : ℤ) ∧
          c.end_word_idx < (words.length : ℤ)))).map
        (fun c => ⟨c.start_word_idx, c.end_word_idx, c.reason,
          (wordD words c.start_word_idx.toNat).start,
          (wordD words c.end_word_idx.toNat).«end»,
          (wordD words c.end_word_idx.toNat).«end» -
            (wordD words c.start_word_idx.toNat).start⟩) := by
  induction cuts with
  | nil => rfl
  | cons c cs ih =>
    have hc := h c (List.mem_cons_self _ _)
    have ih' := ih (fun d hd => h d (List.mem_cons_of_mem _ hd))
    by_cases hv : (words.length : ℤ) ≤ c.start_word_idx ∨ (words.length : ℤ) ≤ c.end_word_idx
    · have hcond : ¬ ((fun d : RawCut => decide (d.start_word_idx < (words.length : ℤ) ∧
          d.end_word_idx < (words.length : ℤ))) c = true) := by
        simp only [decide_eq_true_eq]
        rintro ⟨h1, h2⟩
        rcases hv with hv | hv
        · exact absurd hv (not_le.mpr h1)
        · exact absurd hv (not_le.mpr h2)
      rw [validate_cuts, if_pos hv, List.filter_cons, if_neg hcond]
      exact ih'
    · push_neg at hv
      have hcond : (fun d : RawCut => decide (d.start_word_idx < (words.length : ℤ) ∧
          d.end_word_idx < (words.length : ℤ))) c = true := by
        simp only [decide_eq_true_eq]
        exact ⟨hv.1, hv.2⟩
      rw [validate_cuts, if_neg (by push_neg; exact hv), List.filter_cons, if_pos hcond,
        List.map_cons]
      rw [pyGetW, pyGetW, if_pos hc.1, if_pos hc.2, ih']

/-- C8 witness: the amended validation theorem at a concrete input with one
in-range cut (retained and enriched) and one out-of-range cut (skipped). -/
theorem c8_witness :
    (∀ c ∈ ([⟨0, 1, "ok"⟩, ⟨1, 5, "high"⟩] : List RawCut),
      0 ≤ c.start_word_idx ∧ 0 ≤ c.end_word_idx) ∧
    validate_cuts [⟨"a", 0, 1, 0⟩, ⟨"b", 2, 3, 0⟩] [⟨0, 1, "ok"⟩, ⟨1, 5, "high"⟩] =
      (([⟨0, 1, "ok"⟩, ⟨1, 5, "high"⟩] : List RawCut).filter
          (fun c => decide (c.start_word_idx <
              (([⟨"a", 0, 1, 0⟩, ⟨"b", 2, 3, 0⟩] : List Word).length : ℤ) ∧
            c.end_word_idx <
              (([⟨"a", 0, 1, 0⟩, ⟨"b", 2, 3, 0⟩] : List Word).length : ℤ)))).map
        (fun c => ⟨c.start_word_idx, c.end_word_idx, c.reason,
          (wordD [⟨"a", 0, 1, 0⟩, ⟨"b", 2, 3, 0⟩] c.start_word_idx.toNat).start,
          (wordD [⟨"a", 0, 1, 0⟩, ⟨"b", 2, 3, 0⟩] c.end_word_idx.toNat).«end»,
          (wordD [⟨"a", 0, 1, 0⟩, ⟨"b", 2, 3, 0⟩] c.end_word_idx.toNat).«end» -
            (wordD [⟨"a", 0, 1, 0⟩, ⟨"b", 2, 3, 0⟩] c.start_word_idx.toNat).start⟩) :=
  ⟨by with_unfolding_all decide,
    c8_amended [⟨"a", 0, 1, 0⟩, ⟨"b", 2, 3, 0⟩] [⟨0, 1, "ok"⟩, ⟨1, 5, "high"⟩]
      (by with_unfolding_all decide)⟩

/-- C9 witness: the progress theorem applied at a concrete one-word stream,
with the fuel-stability hypothesis discharged at fuel 5. -/
theorem c9_witness :
    groupGo [⟨"a", 0, 1, 0⟩] (effBoundaries [⟨"a", 0, 1, 0⟩] [0] 10) 10 15 5 1 0 =
      groupGo [⟨"a", 0, 1, 0⟩] (effBoundaries [⟨"a", 0, 1, 0⟩] [0] 10) 10 15
        ([(⟨"a", 0, 1, 0⟩ : Word)].length + 1) 1 0 :=
  (c9_group_progress [⟨"a", 0, 1, 0⟩] [0] 15 3 10).2.2 5 (by decide)
